import Mathlib

/-!
A shallow embedding of the Naive Bayes text classifier implemented in
`classifier.cpp`, together with proofs of its specified properties.

Modelling conventions:
* `std::string` is Lean `String`; the C++ `operator<` (lexicographic byte
  comparison) is modelled by `strLt`, lexicographic comparison of the
  character lists (for valid UTF-8, byte order and code-point order agree).
* `std::map<string, T>` is an association list `List (String × T)` kept
  strictly sorted by key (`std::map` stores entries in ascending key order and
  iterates them in that order); `std::set<string>` is a strictly sorted
  `List String`.
* `istringstream >> word` extraction is modelled by `splitCore`, which splits
  a character list at whitespace and drops empty chunks.
* `double` values are modelled as exact real numbers (`ℝ`); `log` is
  `Real.log`.  Every score computed by the program is the logarithm of a
  positive rational number `n / d`; inside `predict` a score is therefore
  represented by the numerator/denominator pair `(n, d) : ℕ × ℕ` whose value
  is `Real.log (n / d)`, and score comparisons are performed by
  cross-multiplication, which agrees with comparison of the logarithms
  because `Real.log` is strictly monotone on positives (proved below).
  The initial `best_score = numeric_limits<double>::lowest()` sentinel, which
  every finite score beats, is modelled by `Option.none`.
* A CSV input file is modelled as the list of `(tag, content)` pairs its rows
  denote; the file system is a partial map from file names to such lists,
  `none` meaning the file cannot be opened.
-/

/-- Lexicographic comparison of character lists, mirroring the byte-wise
`operator<` of `std::string`. -/
def charListLt : List Char → List Char → Bool
  | [], [] => false
  | [], _ :: _ => true
  | _ :: _, [] => false
  | a :: as, b :: bs => if a < b then true else if b < a then false else charListLt as bs

/-- The C++ `std::string` strict order `lhs < rhs`. -/
def strLt (a b : String) : Bool := charListLt a.data b.data

/-- Split a character list into maximal whitespace-free chunks, accumulating
the current chunk; models repeated `istringstream >> word` extraction. -/
def splitCore : List Char → List Char → List (List Char)
  | [], cur => if cur = [] then [] else [cur]
  | c :: rest, cur =>
    if c.isWhitespace then
      (if cur = [] then splitCore rest [] else cur :: splitCore rest [])
    else splitCore rest (cur ++ [c])

/-- The whitespace-delimited tokens of a string, in text order. -/
def tokenize (s : String) : List String := (splitCore s.data []).map String.mk

/-- Insertion into a strictly sorted list of strings; models
`std::set<string>::insert` (no effect when the element is present). -/
def insertSorted (w : String) : List String → List String
  | [] => [w]
  | x :: rest =>
    if strLt w x then w :: x :: rest
    else if w = x then x :: rest
    else x :: insertSorted w rest

/-- The function `unique_words` from `classifier.cpp`: the set of unique whitespace
delimited words of a string, as the sorted duplicate-free list that
`std::set<string>` iterates. -/
def unique_words (str : String) : List String :=
  (tokenize str).foldl (fun acc w => insertSorted w acc) []

/-- Models `std::map::find`: the value stored at a key, if present. -/
def findVal {α : Type} : List (String × α) → String → Option α
  | [], _ => none
  | (k, v) :: rest, key => if key = k then some v else findVal rest key

/-- Reading a counter map at a key, with absent keys reading as `0`
(the value a fresh `std::map<string,int>` entry would hold). -/
def lookupD : List (String × ℕ) → String → ℕ
  | [], _ => 0
  | (k, v) :: rest, key => if key = k then v else lookupD rest key

/-- Reading the nested `map<string, map<string, int>>` at a label and word. -/
def lookupNested : List (String × List (String × ℕ)) → String → String → ℕ
  | [], _, _ => 0
  | (k, inner) :: rest, label, w => if label = k then lookupD inner w else lookupNested rest label w

/-- Models `m[k]++` on a sorted counter map: increment the entry at `k`, inserting
`(k, 1)` at its sorted position when absent (a fresh entry value-initialises
to `0` and is then incremented). -/
def bump (k : String) : List (String × ℕ) → List (String × ℕ)
  | [] => [(k, 1)]
  | (k₁, v) :: rest =>
    if strLt k k₁ then (k, 1) :: (k₁, v) :: rest
    else if k = k₁ then (k₁, v + 1) :: rest
    else (k₁, v) :: bump k rest

/-- Models `m[label][w]++` on the sorted nested map. -/
def bumpNested (label w : String) :
    List (String × List (String × ℕ)) → List (String × List (String × ℕ))
  | [] => [(label, [(w, 1)])]
  | (k, inner) :: rest =>
    if strLt label k then (label, [(w, 1)]) :: (k, inner) :: rest
    else if label = k then (k, bump w inner) :: rest
    else (k, inner) :: bumpNested label w rest

/-- Sum of the values of a counter map. -/
def sumVals (l : List (String × ℕ)) : ℕ := (l.map Prod.snd).sum

/-- Sum, over all labels of the nested map, of the count stored for `w`. -/
def sumNestedAt (w : String) (l : List (String × List (String × ℕ))) : ℕ :=
  (l.map (fun e => lookupD e.2 w)).sum

/-- The `Classifier` class state: training-set statistics. -/
structure Classifier where
  total_posts : ℕ
  vocabulary : List String
  numPosts_word : List (String × ℕ)
  numPosts_label : List (String × ℕ)
  numPosts_label_word : List (String × List (String × ℕ))
  trainingData : List (String × String)
deriving DecidableEq

/-- A default-constructed `Classifier`. -/
def emptyClassifier : Classifier :=
  { total_posts := 0, vocabulary := [], numPosts_word := [], numPosts_label := [],
    numPosts_label_word := [], trainingData := [] }

/-- The body of the row loop in `Classifier::train`: ingest one training
document with the given label and content. -/
def train_one (m : Classifier) (label content : String) : Classifier :=
  let words := unique_words content
  { total_posts := m.total_posts + 1
    vocabulary := words.foldl (fun v w => insertSorted w v) m.vocabulary
    numPosts_word := words.foldl (fun t w => bump w t) m.numPosts_word
    numPosts_label := bump label m.numPosts_label
    numPosts_label_word := words.foldl (fun t w => bumpNested label w t) m.numPosts_label_word
    trainingData := m.trainingData ++ [(label, content)] }

/-- The row loop of `Classifier::train` over the parsed rows of a CSV file. -/
def trainRows (m : Classifier) (rows : List (String × String)) : Classifier :=
  rows.foldl (fun acc row => train_one acc row.1 row.2) m

/-- The classifier obtained by training a fresh instance on the given rows. -/
def trainList (rows : List (String × String)) : Classifier :=
  trainRows emptyClassifier rows

/-- Models `Classifier::train` on a file: when the file cannot be opened
(`contents = none`) an error is printed and the method returns with the
classifier untouched; otherwise every row is ingested. -/
def train (m : Classifier) (contents : Option (List (String × String))) : Classifier :=
  match contents with
  | none => m
  | some rows => trainRows m rows

/-- Models `Classifier::calculate_log_likelihood`: the `find`-based count extraction
followed by the three-way branch on `count` and `globalCount`.  The
`numPosts_label.at(label)` call (which throws on a missing key; never reached
for a trained classifier in the `count > 0` branch) is modelled by `lookupD`. -/
noncomputable def calculate_log_likelihood (m : Classifier) (label word : String) : ℝ :=
  let count : ℕ :=
    match findVal m.numPosts_label_word label with
    | none => 0
    | some inner =>
      match findVal inner word with
      | none => 0
      | some c => c
  if 0 < count then
    Real.log ((count : ℝ) / (lookupD m.numPosts_label label : ℝ))
  else
    let globalCount := lookupD m.numPosts_word word
    if 0 < globalCount then
      Real.log ((globalCount : ℝ) / (m.total_posts : ℝ))
    else
      Real.log (1 / (m.total_posts : ℝ))

/-- The positive fraction `(numerator, denominator)` whose logarithm
`calculate_log_likelihood` returns, following the same three branches. -/
def likFrac (m : Classifier) (label word : String) : ℕ × ℕ :=
  let count := lookupNested m.numPosts_label_word label word
  if 0 < count then (count, lookupD m.numPosts_label label)
  else
    let globalCount := lookupD m.numPosts_word word
    if 0 < globalCount then (globalCount, m.total_posts)
    else (1, m.total_posts)

/-- The fraction whose logarithm is the score `predict` accumulates for one
label: start from the prior `label_count / total_posts` and multiply in the
likelihood fraction of each word, mirroring `score += log likelihood`. -/
def scoreFrac (m : Classifier) (words : List String) (label : String) (cnt : ℕ) : ℕ × ℕ :=
  words.foldl (fun acc w => (acc.1 * (likFrac m label w).1, acc.2 * (likFrac m label w).2))
    (cnt, m.total_posts)

/-- One iteration of the label loop in `Classifier::predict`.  `none` models
the initial `best_score = numeric_limits<double>::lowest()` (every score
beats it); `score > best_score` and `score == best_score` on the log scores
become cross-multiplied comparisons of the underlying fractions. -/
def predictStep (m : Classifier) (words : List String)
    (best : Option (String × (ℕ × ℕ))) (e : String × ℕ) : Option (String × (ℕ × ℕ)) :=
  let s := scoreFrac m words e.1 e.2
  match best with
  | none => some (e.1, s)
  | some (bl, bs) =>
    if bs.1 * s.2 < s.1 * bs.2 ∨ (s.1 * bs.2 = bs.1 * s.2 ∧ strLt e.1 bl = true) then
      some (e.1, s)
    else some (bl, bs)

/-- Models `Classifier::predict`: the label loop over `numPosts_label` (in its
sorted iteration order), returning the best label together with its score
(`none` standing for the untouched `lowest()` sentinel when there are no
labels, in which case `best_label` is the default-constructed empty string). -/
def predictPair (m : Classifier) (content : String) : String × Option (ℕ × ℕ) :=
  let words := unique_words content
  match m.numPosts_label.foldl (predictStep m words) none with
  | none => ("", none)
  | some (bl, bs) => (bl, some bs)

/-- The label returned by `Classifier::predict`. -/
def predict (m : Classifier) (content : String) : String :=
  (predictPair m content).1

/-- The real-valued score `predict` computes for a label stored with count
`cnt`: the log prior plus the sum of the per-word log likelihoods. -/
noncomputable def realScore (m : Classifier) (words : List String)
    (label : String) (cnt : ℕ) : ℝ :=
  Real.log ((cnt : ℝ) / (m.total_posts : ℝ)) +
    (words.map (fun w => calculate_log_likelihood m label w)).sum

/-- The `classes:` section of `Classifier::print_classifier_parameters`: for
each entry of `numPosts_label`, in iteration order, the label, its document
count, and its log prior. -/
noncomputable def classesSection (m : Classifier) : List (String × ℕ × ℝ) :=
  m.numPosts_label.map (fun e => (e.1, e.2, Real.log ((e.2 : ℝ) / (m.total_posts : ℝ))))

/-- The sequence of labels the `classes:` section emits. -/
def classesLabels (m : Classifier) : List String := m.numPosts_label.map Prod.fst

/-- The order in which distinct labels were first seen during training,
reconstructed from the stored training data. -/
def insertionOrder (m : Classifier) : List String :=
  m.trainingData.foldl (fun acc e => if e.1 ∈ acc then acc else acc ++ [e.1]) []

/-- Models `main`, abstracted over the file system `fs` (mapping a file name to its
parsed rows, or `none` when it cannot be opened): returns the process exit
status and the final classifier state.  With a wrong argument count it exits
`1` before constructing a classifier; otherwise it trains (an unopenable
training file only prints an error inside `train`), then in two-argument mode
prints the diagnostics and exits `0`, and in three-argument mode exits `1` if
the test file cannot be opened and `0` otherwise. -/
def runMain (argv : List String) (fs : String → Option (List (String × String))) :
    ℕ × Classifier :=
  if argv.length < 2 ∨ 3 < argv.length then (1, emptyClassifier)
  else
    let c := train emptyClassifier (fs (argv.getD 1 ""))
    if argv.length = 2 then (0, c)
    else
      match fs (argv.getD 2 "") with
      | none => (1, c)
      | some _ => (0, c)

/-- Spec-side table: `TotalDocuments`. -/
def TotalDocuments (m : Classifier) : ℕ := m.total_posts

/-- Spec-side table: `LabelFrequency[label]`. -/
def LabelFrequency (m : Classifier) (label : String) : ℕ := lookupD m.numPosts_label label

/-- Spec-side table: `DocFrequency[word]`. -/
def DocFrequency (m : Classifier) (word : String) : ℕ := lookupD m.numPosts_word word

/-- Spec-side table: `LabelWordFrequency[label][word]`. -/
def LabelWordFrequency (m : Classifier) (label word : String) : ℕ :=
  lookupNested m.numPosts_label_word label word

/-- The specification's `logLikelihood(label, word)`, written exactly as its
three-tier policy reads: if `LabelWordFrequency[label][word] = c > 0` return
`ln(c / LabelFrequency[label])`; else if `DocFrequency[word] = g > 0` return
`ln(g / TotalDocuments)`; else return `ln(1 / TotalDocuments)`. -/
noncomputable def specLogLikelihood (m : Classifier) (label word : String) : ℝ :=
  if 0 < LabelWordFrequency m label word then
    Real.log ((LabelWordFrequency m label word : ℝ) / (LabelFrequency m label : ℝ))
  else if 0 < DocFrequency m word then
    Real.log ((DocFrequency m word : ℝ) / (TotalDocuments m : ℝ))
  else
    Real.log (1 / (TotalDocuments m : ℝ))

/-- The specification's `logPrior(label) = ln(LabelFrequency[label] / TotalDocuments)`. -/
noncomputable def logPrior (m : Classifier) (label : String) : ℝ :=
  Real.log ((LabelFrequency m label : ℝ) / (TotalDocuments m : ℝ))

/-- Strict sortedness of an association list by key, the representation
invariant of `std::map<string, T>`. -/
def KeysSorted {α : Type} (l : List (String × α)) : Prop :=
  l.Pairwise (fun a b => strLt a.1 b.1 = true)

/-- Sortedness of the nested map: the outer list and every inner list. -/
def NestedSorted (t : List (String × List (String × ℕ))) : Prop :=
  KeysSorted t ∧ ∀ e ∈ t, KeysSorted e.2

/-- The real value of a numerator/denominator pair. -/
noncomputable def fracVal (p : ℕ × ℕ) : ℝ := (p.1 : ℝ) / (p.2 : ℝ)

/-- Representation invariants of a trained `Classifier`: the `std::map` and
`std::set` representations are sorted, every stored label count is positive,
and the documented counting identities hold. -/
structure ClassifierInv (m : Classifier) : Prop where
  label_sorted : KeysSorted m.numPosts_label
  word_sorted : KeysSorted m.numPosts_word
  nested_sorted : NestedSorted m.numPosts_label_word
  vocab_sorted : m.vocabulary.Pairwise (fun a b => strLt a b = true)
  label_pos : ∀ e ∈ m.numPosts_label, 0 < e.2
  total_eq : m.total_posts = sumVals m.numPosts_label
  doc_eq : ∀ w, lookupD m.numPosts_word w = sumNestedAt w m.numPosts_label_word
  nested_le : ∀ label w,
    lookupNested m.numPosts_label_word label w ≤ lookupD m.numPosts_label label

/-- Linear-order facts about the embedded string comparison. -/
theorem charListLt_irrefl : ∀ l : List Char, charListLt l l = false
  | [] => rfl
  | a :: as => by simp [charListLt, charListLt_irrefl as]

theorem charListLt_trans :
    ∀ a b c : List Char, charListLt a b = true → charListLt b c = true →
      charListLt a c = true
  | [], [], _, hab, _ => by simp [charListLt] at hab
  | [], _ :: _, [], _, hbc => by simp [charListLt] at hbc
  | [], _ :: _, _ :: _, _, _ => by simp [charListLt]
  | _ :: _, [], _, hab, _ => by simp [charListLt] at hab
  | _ :: _, _ :: _, [], _, hbc => by simp [charListLt] at hbc
  | x :: as, y :: bs, z :: cs, hab, hbc => by
    simp only [charListLt] at hab hbc ⊢
    by_cases h1 : x < y
    · by_cases h2 : y < z
      · simp [lt_trans h1 h2]
      · by_cases h3 : z < y
        · simp [h2, h3] at hbc
        · have hyz : y = z := le_antisymm (le_of_not_lt h3) (le_of_not_lt h2)
          subst hyz
          simp [h1]
    · by_cases h4 : y < x
      · simp [h1, h4] at hab
      · have hxy : x = y := le_antisymm (le_of_not_lt h4) (le_of_not_lt h1)
        subst hxy
        simp only [lt_irrefl, if_false] at hab
        by_cases h2 : x < z
        · simp [h2]
        · by_cases h3 : z < x
          · simp [h2, h3] at hbc
          · simp only [h2, h3, if_false] at hbc ⊢
            exact charListLt_trans as bs cs hab hbc

theorem charListLt_eq_of_false :
    ∀ a b : List Char, charListLt a b = false → charListLt b a = false → a = b
  | [], [], _, _ => rfl
  | [], _ :: _, hab, _ => by simp [charListLt] at hab
  | _ :: _, [], _, hba => by simp [charListLt] at hba
  | x :: as, y :: bs, hab, hba => by
    simp only [charListLt] at hab hba
    by_cases h1 : x < y
    · simp [h1] at hab
    · by_cases h2 : y < x
      · simp [h2] at hba
      · have hxy : x = y := le_antisymm (le_of_not_lt h2) (le_of_not_lt h1)
        subst hxy
        simp only [lt_irrefl, if_false] at hab hba
        exact congrArg (x :: ·) (charListLt_eq_of_false as bs hab hba)

theorem strLt_irrefl (a : String) : strLt a a = false := charListLt_irrefl a.data

theorem strLt_trans {a b c : String} (hab : strLt a b = true) (hbc : strLt b c = true) :
    strLt a c = true :=
  charListLt_trans a.data b.data c.data hab hbc

theorem strLt_eq_of_false {a b : String} (hab : strLt a b = false)
    (hba : strLt b a = false) : a = b := by
  have hd := charListLt_eq_of_false a.data b.data hab hba
  cases a
  cases b
  exact congrArg String.mk (by simpa using hd)

theorem strLt_ne {a b : String} (h : strLt a b = true) : a ≠ b := by
  intro he
  subst he
  simp [strLt_irrefl] at h

theorem strLt_asymm {a b : String} (h : strLt a b = true) : strLt b a = false := by
  cases hba : strLt b a with
  | false => rfl
  | true => exact absurd (strLt_trans h hba) (by simp [strLt_irrefl])

theorem strLt_total (a b : String) : strLt a b = true ∨ a = b ∨ strLt b a = true := by
  cases hab : strLt a b with
  | true => exact Or.inl rfl
  | false =>
    cases hba : strLt b a with
    | true => exact Or.inr (Or.inr rfl)
    | false => exact Or.inr (Or.inl (strLt_eq_of_false hab hba))

theorem strLt_false_trans {a b c : String} (h1 : strLt a b = false)
    (h2 : strLt b c = false) : strLt a c = false := by
  cases hac : strLt a c with
  | false => rfl
  | true =>
    rcases strLt_total b c with hbc | rfl | hcb
    · simp [hbc] at h2
    · simp [hac] at h1
    · exact absurd (strLt_trans hac hcb) (by simp [h1])

theorem lookupD_eq_zero {l : List (String × ℕ)} {key : String}
    (h : ∀ e ∈ l, e.1 ≠ key) : lookupD l key = 0 := by
  induction l with
  | nil => rfl
  | cons e rest ih =>
    obtain ⟨k, v⟩ := e
    have hk : k ≠ key := h (k, v) (List.mem_cons_self _ _)
    have hne : ¬ (key = k) := fun he => hk he.symm
    simp only [lookupD, if_neg hne]
    exact ih (fun e he => h e (List.mem_cons_of_mem _ he))

theorem lookupD_bump {l : List (String × ℕ)} (hs : KeysSorted l) (k j : String) :
    lookupD (bump k l) j = lookupD l j + if j = k then 1 else 0 := by
  induction l with
  | nil =>
    simp only [bump, lookupD]
    by_cases hj : j = k <;> simp [hj]
  | cons e rest ih =>
    obtain ⟨k₁, v⟩ := e
    have hrest : KeysSorted rest := (List.pairwise_cons.mp hs).2
    have hhead : ∀ e ∈ rest, strLt k₁ e.1 = true := (List.pairwise_cons.mp hs).1
    by_cases h1 : strLt k k₁ = true
    · simp only [bump, if_pos h1]
      by_cases hj : j = k
      · subst hj
        have hne : j ≠ k₁ := strLt_ne h1
        have hzero : lookupD ((k₁, v) :: rest) j = 0 := by
          apply lookupD_eq_zero
          intro e he
          rcases List.mem_cons.mp he with rfl | he
          · exact fun hc => hne hc.symm
          · exact fun hc => (strLt_ne (strLt_trans h1 (hhead e he))).symm hc
        have hL : lookupD ((j, 1) :: (k₁, v) :: rest) j = 1 := by
          simp [lookupD]
        rw [hL, hzero]
        simp
      · simp only [lookupD, if_neg hj, add_zero]
    · by_cases h2 : k = k₁
      · subst h2
        simp only [bump, if_neg h1, if_pos rfl]
        by_cases hj : j = k
        · subst hj
          simp [lookupD]
        · simp [lookupD, hj]
      · simp only [bump, if_neg h1, if_neg h2]
        by_cases hj : j = k₁
        · subst hj
          have hjk : ¬ (j = k) := fun hc => h2 hc.symm
          simp [lookupD, hjk]
        · simp only [lookupD, if_neg hj]
          exact ih hrest

theorem bump_keys {l : List (String × ℕ)} {k : String} :
    ∀ e ∈ bump k l, e.1 = k ∨ e.1 ∈ l.map Prod.fst := by
  induction l with
  | nil => simp [bump]
  | cons e₁ rest ih =>
    obtain ⟨k₁, v⟩ := e₁
    intro e he
    by_cases h1 : strLt k k₁ = true
    · simp only [bump, if_pos h1] at he
      rcases List.mem_cons.mp he with rfl | he
      · exact Or.inl rfl
      · rcases List.mem_cons.mp he with rfl | he
        · simp
        · exact Or.inr (List.mem_cons_of_mem _ (List.mem_map_of_mem _ he))
    · by_cases h2 : k = k₁
      · subst h2
        simp only [bump, if_neg h1, if_pos rfl] at he
        rcases List.mem_cons.mp he with rfl | he
        · simp
        · exact Or.inr (List.mem_cons_of_mem _ (List.mem_map_of_mem _ he))
      · simp only [bump, if_neg h1, if_neg h2] at he
        rcases List.mem_cons.mp he with rfl | he
        · simp
        · rcases ih e he with h | h
          · exact Or.inl h
          · exact Or.inr (List.mem_cons_of_mem _ h)

theorem bump_sorted {l : List (String × ℕ)} (hs : KeysSorted l) (k : String) :
    KeysSorted (bump k l) := by
  induction l with
  | nil => simp [bump, KeysSorted]
  | cons e₁ rest ih =>
    obtain ⟨k₁, v⟩ := e₁
    have hrest : KeysSorted rest := (List.pairwise_cons.mp hs).2
    have hhead : ∀ e ∈ rest, strLt k₁ e.1 = true := (List.pairwise_cons.mp hs).1
    by_cases h1 : strLt k k₁ = true
    · simp only [bump, if_pos h1]
      refine List.pairwise_cons.mpr ⟨?_, hs⟩
      intro e he
      rcases List.mem_cons.mp he with rfl | he
      · exact h1
      · exact strLt_trans h1 (hhead e he)
    · by_cases h2 : k = k₁
      · subst h2
        simp only [bump, if_neg h1, if_pos rfl]
        exact List.pairwise_cons.mpr ⟨hhead, hrest⟩
      · simp only [bump, if_neg h1, if_neg h2]
        refine List.pairwise_cons.mpr ⟨?_, ih hrest⟩
        intro e he
        rcases bump_keys e he with h | h
        · rw [h]
          rcases strLt_total k₁ k with ht | hrfl | ht
          · exact ht
          · exact absurd hrfl.symm h2
          · exact absurd ht h1
        · rcases List.mem_map.mp h with ⟨e₁, he₁, hfst⟩
          rw [← hfst]
          exact hhead e₁ he₁

theorem sumVals_bump (k : String) : ∀ l : List (String × ℕ),
    sumVals (bump k l) = sumVals l + 1
  | [] => by simp [bump, sumVals]
  | (k₁, v) :: rest => by
    by_cases h1 : strLt k k₁ = true
    · simp [bump, if_pos h1, sumVals]
      omega
    · by_cases h2 : k = k₁
      · subst h2
        simp [bump, if_neg h1, sumVals]
        omega
      · have := sumVals_bump k rest
        simp only [bump, if_neg h1, if_neg h2, sumVals, List.map_cons, List.sum_cons] at this ⊢
        omega

theorem bump_pos {l : List (String × ℕ)} (h : ∀ e ∈ l, 0 < e.2) (k : String) :
    ∀ e ∈ bump k l, 0 < e.2 := by
  induction l with
  | nil => simp [bump]
  | cons e₁ rest ih =>
    obtain ⟨k₁, v⟩ := e₁
    intro e he
    by_cases h1 : strLt k k₁ = true
    · simp only [bump, if_pos h1] at he
      rcases List.mem_cons.mp he with rfl | he
      · simp
      · exact h e he
    · by_cases h2 : k = k₁
      · subst h2
        simp only [bump, if_neg h1, if_pos rfl] at he
        rcases List.mem_cons.mp he with rfl | he
        · simp
        · exact h e (List.mem_cons_of_mem _ he)
      · simp only [bump, if_neg h1, if_neg h2] at he
        rcases List.mem_cons.mp he with rfl | he
        · exact h (k₁, v) (List.mem_cons_self _ _)
        · exact ih (fun e he => h e (List.mem_cons_of_mem _ he)) e he

theorem lookupD_of_mem {l : List (String × ℕ)} (hs : KeysSorted l) {k : String}
    {v : ℕ} (hm : (k, v) ∈ l) : lookupD l k = v := by
  induction l with
  | nil => simp at hm
  | cons e₁ rest ih =>
    obtain ⟨k₁, v₁⟩ := e₁
    have hrest : KeysSorted rest := (List.pairwise_cons.mp hs).2
    have hhead : ∀ e ∈ rest, strLt k₁ e.1 = true := (List.pairwise_cons.mp hs).1
    rcases List.mem_cons.mp hm with he | he
    · cases he
      simp [lookupD]
    · have hk : ¬ (k = k₁) := by
        intro hc
        subst hc
        exact (strLt_ne (hhead (k, v) he)).symm rfl
      simp only [lookupD, if_neg hk]
      exact ih hrest he

theorem mem_of_findVal {α : Type} {l : List (String × α)} {k : String} {v : α}
    (h : findVal l k = some v) : (k, v) ∈ l := by
  induction l with
  | nil => simp [findVal] at h
  | cons e₁ rest ih =>
    obtain ⟨k₁, v₁⟩ := e₁
    by_cases hk : k = k₁
    · subst hk
      simp [findVal] at h
      subst h
      exact List.mem_cons_self _ _
    · simp only [findVal, if_neg hk] at h
      exact List.mem_cons_of_mem _ (ih h)

theorem lookupD_eq_findVal (l : List (String × ℕ)) (k : String) :
    lookupD l k = (findVal l k).getD 0 := by
  induction l with
  | nil => rfl
  | cons e₁ rest ih =>
    obtain ⟨k₁, v₁⟩ := e₁
    by_cases hk : k = k₁
    · simp [lookupD, findVal, hk]
    · simp [lookupD, findVal, hk, ih]

theorem lookupNested_eq_zero {t : List (String × List (String × ℕ))} {key w : String}
    (h : ∀ e ∈ t, e.1 ≠ key) : lookupNested t key w = 0 := by
  induction t with
  | nil => rfl
  | cons e rest ih =>
    obtain ⟨k, inner⟩ := e
    have hk : k ≠ key := h (k, inner) (List.mem_cons_self _ _)
    have hne : ¬ (key = k) := fun he => hk he.symm
    simp only [lookupNested, if_neg hne]
    exact ih (fun e he => h e (List.mem_cons_of_mem _ he))

theorem lookupNested_bumpNested {t : List (String × List (String × ℕ))}
    (hs : NestedSorted t) (label w lab j : String) :
    lookupNested (bumpNested label w t) lab j =
      lookupNested t lab j + if lab = label ∧ j = w then 1 else 0 := by
  induction t with
  | nil =>
    simp only [bumpNested, lookupNested]
    by_cases hl : lab = label
    · subst hl
      simp only [if_pos rfl, lookupD]
      by_cases hj : j = w <;> simp [hj]
    · simp [hl]
  | cons e rest ih =>
    obtain ⟨k, inner⟩ := e
    have houter : KeysSorted ((k, inner) :: rest) := hs.1
    have hrest : KeysSorted rest := (List.pairwise_cons.mp houter).2
    have hhead : ∀ e ∈ rest, strLt k e.1 = true := (List.pairwise_cons.mp houter).1
    have hinner : ∀ e ∈ rest, KeysSorted e.2 :=
      fun e he => hs.2 e (List.mem_cons_of_mem _ he)
    have hrs : NestedSorted rest := ⟨hrest, hinner⟩
    by_cases h1 : strLt label k = true
    · simp only [bumpNested, if_pos h1]
      by_cases hl : lab = label
      · subst hl
        have hzero : lookupNested ((k, inner) :: rest) lab j = 0 := by
          apply lookupNested_eq_zero
          intro e he
          rcases List.mem_cons.mp he with rfl | he
          · exact fun hc => (strLt_ne h1) hc.symm
          · exact fun hc => (strLt_ne (strLt_trans h1 (hhead e he))).symm hc
        have hL : lookupNested ((lab, [(w, 1)]) :: (k, inner) :: rest) lab j =
            lookupD [(w, 1)] j := by
          simp [lookupNested]
        rw [hL, hzero]
        by_cases hj : j = w <;> simp [lookupD, hj]
      · have hL : lookupNested ((label, [(w, 1)]) :: (k, inner) :: rest) lab j =
            lookupNested ((k, inner) :: rest) lab j := by
          simp [lookupNested, hl]
        rw [hL]
        simp [hl]
    · by_cases h2 : label = k
      · subst h2
        simp only [bumpNested, if_neg h1, if_pos rfl]
        by_cases hl : lab = label
        · subst hl
          have hinner0 : KeysSorted inner := hs.2 (lab, inner) (List.mem_cons_self _ _)
          simp only [lookupNested, if_pos rfl]
          rw [lookupD_bump hinner0]
          by_cases hj : j = w <;> simp [hj]
        · simp only [lookupNested, if_neg hl]
          simp [hl]
      · simp only [bumpNested, if_neg h1, if_neg h2]
        by_cases hl : lab = k
        · subst hl
          have hll : ¬ (lab = label) := fun hc => h2 hc.symm
          simp only [lookupNested, if_pos rfl]
          simp [hll]
        · simp only [lookupNested, if_neg hl]
          exact ih hrs

theorem bumpNested_keys {t : List (String × List (String × ℕ))} {label w : String} :
    ∀ e ∈ bumpNested label w t, e.1 = label ∨ e.1 ∈ t.map Prod.fst := by
  induction t with
  | nil => simp [bumpNested]
  | cons e₁ rest ih =>
    obtain ⟨k, inner⟩ := e₁
    intro e he
    by_cases h1 : strLt label k = true
    · simp only [bumpNested, if_pos h1] at he
      rcases List.mem_cons.mp he with rfl | he
      · exact Or.inl rfl
      · rcases List.mem_cons.mp he with rfl | he
        · simp
        · exact Or.inr (List.mem_cons_of_mem _ (List.mem_map_of_mem _ he))
    · by_cases h2 : label = k
      · subst h2
        simp only [bumpNested, if_neg h1, if_pos rfl] at he
        rcases List.mem_cons.mp he with rfl | he
        · simp
        · exact Or.inr (List.mem_cons_of_mem _ (List.mem_map_of_mem _ he))
      · simp only [bumpNested, if_neg h1, if_neg h2] at he
        rcases List.mem_cons.mp he with rfl | he
        · simp
        · rcases ih e he with h | h
          · exact Or.inl h
          · exact Or.inr (List.mem_cons_of_mem _ h)

theorem bumpNested_sorted {t : List (String × List (String × ℕ))}
    (hs : NestedSorted t) (label w : String) : NestedSorted (bumpNested label w t) := by
  induction t with
  | nil =>
    constructor
    · simp [bumpNested, KeysSorted]
    · intro e he
      simp only [bumpNested, List.mem_singleton] at he
      subst he
      simp [KeysSorted]
  | cons e₁ rest ih =>
    obtain ⟨k, inner⟩ := e₁
    have houter : KeysSorted ((k, inner) :: rest) := hs.1
    have hrest : KeysSorted rest := (List.pairwise_cons.mp houter).2
    have hhead : ∀ e ∈ rest, strLt k e.1 = true := (List.pairwise_cons.mp houter).1
    have hinner0 : KeysSorted inner := hs.2 (k, inner) (List.mem_cons_self _ _)
    have hinner : ∀ e ∈ rest, KeysSorted e.2 :=
      fun e he => hs.2 e (List.mem_cons_of_mem _ he)
    have hrs : NestedSorted rest := ⟨hrest, hinner⟩
    by_cases h1 : strLt label k = true
    · simp only [bumpNested, if_pos h1]
      constructor
      · refine List.pairwise_cons.mpr ⟨?_, houter⟩
        intro e he
        rcases List.mem_cons.mp he with rfl | he
        · exact h1
        · exact strLt_trans h1 (hhead e he)
      · intro e he
        rcases List.mem_cons.mp he with rfl | he
        · simp [KeysSorted]
        · exact hs.2 e he
    · by_cases h2 : label = k
      · subst h2
        simp only [bumpNested, if_neg h1, if_pos rfl]
        constructor
        · exact List.pairwise_cons.mpr ⟨hhead, hrest⟩
        · intro e he
          rcases List.mem_cons.mp he with rfl | he
          · exact bump_sorted hinner0 w
          · exact hinner e he
      · simp only [bumpNested, if_neg h1, if_neg h2]
        constructor
        · refine List.pairwise_cons.mpr ⟨?_, (ih hrs).1⟩
          intro e he
          rcases bumpNested_keys e he with h | h
          · rw [h]
            rcases strLt_total k label with ht | hrfl | ht
            · exact ht
            · exact absurd hrfl.symm h2
            · exact absurd ht h1
          · rcases List.mem_map.mp h with ⟨e₁, he₁, hfst⟩
            rw [← hfst]
            exact hhead e₁ he₁
        · intro e he
          rcases List.mem_cons.mp he with rfl | he
          · exact hinner0
          · exact (ih hrs).2 e he

theorem sumNestedAt_bumpNested {t : List (String × List (String × ℕ))}
    (hs : ∀ e ∈ t, KeysSorted e.2) (label w j : String) :
    sumNestedAt j (bumpNested label w t) =
      sumNestedAt j t + if j = w then 1 else 0 := by
  induction t with
  | nil =>
    simp only [bumpNested, sumNestedAt, List.map_cons, List.map_nil, List.sum_cons,
      List.sum_nil]
    by_cases hj : j = w <;> simp [lookupD, hj]
  | cons e₁ rest ih =>
    obtain ⟨k, inner⟩ := e₁
    have hinner0 : KeysSorted inner := hs (k, inner) (List.mem_cons_self _ _)
    have hinner : ∀ e ∈ rest, KeysSorted e.2 :=
      fun e he => hs e (List.mem_cons_of_mem _ he)
    by_cases h1 : strLt label k = true
    · simp only [bumpNested, if_pos h1, sumNestedAt, List.map_cons, List.sum_cons]
      have : lookupD [(w, 1)] j = if j = w then 1 else 0 := by
        by_cases hj : j = w <;> simp [lookupD, hj]
      rw [this]
      omega
    · by_cases h2 : label = k
      · subst h2
        simp only [bumpNested, if_neg h1, eq_self_iff_true, if_true, sumNestedAt,
          List.map_cons, List.sum_cons]
        rw [lookupD_bump hinner0]
        omega
      · simp only [bumpNested, if_neg h1, if_neg h2, sumNestedAt, List.map_cons,
          List.sum_cons]
        have := ih hinner
        simp only [sumNestedAt] at this
        omega

theorem mem_insertSorted {w x : String} : ∀ l : List String,
    x ∈ insertSorted w l ↔ x = w ∨ x ∈ l
  | [] => by simp [insertSorted]
  | y :: rest => by
    by_cases h1 : strLt w y = true
    · simp only [insertSorted, if_pos h1, List.mem_cons]
    · by_cases h2 : w = y
      · subst h2
        simp only [insertSorted, if_neg h1, eq_self_iff_true, if_true, List.mem_cons]
        tauto
      · simp only [insertSorted, if_neg h1, if_neg h2, List.mem_cons,
          mem_insertSorted rest]
        tauto

theorem insertSorted_sorted {l : List String}
    (hs : l.Pairwise (fun a b => strLt a b = true)) (w : String) :
    (insertSorted w l).Pairwise (fun a b => strLt a b = true) := by
  induction l with
  | nil => simp [insertSorted]
  | cons y rest ih =>
    have hrest := (List.pairwise_cons.mp hs).2
    have hhead := (List.pairwise_cons.mp hs).1
    by_cases h1 : strLt w y = true
    · simp only [insertSorted, if_pos h1]
      refine List.pairwise_cons.mpr ⟨?_, hs⟩
      intro e he
      rcases List.mem_cons.mp he with rfl | he
      · exact h1
      · exact strLt_trans h1 (hhead e he)
    · by_cases h2 : w = y
      · subst h2
        simpa only [insertSorted, if_neg h1, if_pos rfl] using hs
      · simp only [insertSorted, if_neg h1, if_neg h2]
        refine List.pairwise_cons.mpr ⟨?_, ih hrest⟩
        intro e he
        rcases (mem_insertSorted rest).mp he with rfl | he
        · rcases strLt_total y e with ht | hrfl | ht
          · exact ht
          · exact absurd hrfl.symm h2
          · exact absurd ht h1
        · exact hhead e he

theorem length_le_insertSorted (w : String) : ∀ l : List String,
    l.length ≤ (insertSorted w l).length
  | [] => by simp [insertSorted]
  | y :: rest => by
    by_cases h1 : strLt w y = true
    · simp [insertSorted, if_pos h1]
    · by_cases h2 : w = y
      · subst h2
        simp [insertSorted, if_neg h1]
      · have := length_le_insertSorted w rest
        simp only [insertSorted, if_neg h1, if_neg h2, List.length_cons]
        omega

theorem foldl_insertSorted_sorted (ws : List String) :
    ∀ acc : List String, acc.Pairwise (fun a b => strLt a b = true) →
      (ws.foldl (fun a w => insertSorted w a) acc).Pairwise (fun a b => strLt a b = true) := by
  induction ws with
  | nil => exact fun acc h => h
  | cons w rest ih =>
    intro acc hacc
    exact ih (insertSorted w acc) (insertSorted_sorted hacc w)

theorem foldl_insertSorted_length (ws : List String) :
    ∀ acc : List String,
      acc.length ≤ (ws.foldl (fun a w => insertSorted w a) acc).length := by
  induction ws with
  | nil => exact fun acc => le_refl _
  | cons w rest ih =>
    intro acc
    exact le_trans (length_le_insertSorted w acc) (ih (insertSorted w acc))

theorem unique_words_sorted (s : String) :
    (unique_words s).Pairwise (fun a b => strLt a b = true) :=
  foldl_insertSorted_sorted (tokenize s) [] (List.Pairwise.nil)

theorem foldl_bump_sorted (ws : List String) :
    ∀ t : List (String × ℕ), KeysSorted t →
      KeysSorted (ws.foldl (fun t w => bump w t) t) := by
  induction ws with
  | nil => exact fun t h => h
  | cons w rest ih =>
    intro t ht
    exact ih (bump w t) (bump_sorted ht w)

theorem foldl_bump_lookupD (j : String) : ∀ ws : List String,
    ws.Pairwise (fun a b => strLt a b = true) →
    ∀ t : List (String × ℕ), KeysSorted t →
      lookupD (ws.foldl (fun t w => bump w t) t) j =
        lookupD t j + if j ∈ ws then 1 else 0
  | [], _, t, _ => by simp
  | w :: rest, hw, t, ht => by
    have hwhead := (List.pairwise_cons.mp hw).1
    have hwrest := (List.pairwise_cons.mp hw).2
    have step := foldl_bump_lookupD j rest hwrest (bump w t) (bump_sorted ht w)
    simp only [List.foldl_cons] at step ⊢
    rw [step, lookupD_bump ht]
    by_cases hj : j = w
    · subst hj
      have hnot : j ∉ rest := fun hmem => (strLt_ne (hwhead j hmem)).symm rfl
      simp [hnot]
    · simp [hj, List.mem_cons]

theorem foldl_bumpNested_sorted (label : String) (ws : List String) :
    ∀ t : List (String × List (String × ℕ)), NestedSorted t →
      NestedSorted (ws.foldl (fun t w => bumpNested label w t) t) := by
  induction ws with
  | nil => exact fun t h => h
  | cons w rest ih =>
    intro t ht
    exact ih (bumpNested label w t) (bumpNested_sorted ht label w)

theorem foldl_bumpNested_lookup (lab j label : String) : ∀ ws : List String,
    ws.Pairwise (fun a b => strLt a b = true) →
    ∀ t : List (String × List (String × ℕ)), NestedSorted t →
      lookupNested (ws.foldl (fun t w => bumpNested label w t) t) lab j =
        lookupNested t lab j + if lab = label ∧ j ∈ ws then 1 else 0
  | [], _, t, _ => by simp
  | w :: rest, hw, t, ht => by
    have hwhead := (List.pairwise_cons.mp hw).1
    have hwrest := (List.pairwise_cons.mp hw).2
    have step := foldl_bumpNested_lookup lab j label rest hwrest (bumpNested label w t)
      (bumpNested_sorted ht label w)
    simp only [List.foldl_cons] at step ⊢
    rw [step, lookupNested_bumpNested ht]
    by_cases hl : lab = label
    · subst hl
      by_cases hj : j = w
      · subst hj
        have hnot : j ∉ rest := fun hmem => (strLt_ne (hwhead j hmem)).symm rfl
        simp [hnot]
      · simp [hj, List.mem_cons]
    · simp [hl]

theorem foldl_bumpNested_sumNestedAt (j label : String) : ∀ ws : List String,
    ws.Pairwise (fun a b => strLt a b = true) →
    ∀ t : List (String × List (String × ℕ)), NestedSorted t →
      sumNestedAt j (ws.foldl (fun t w => bumpNested label w t) t) =
        sumNestedAt j t + if j ∈ ws then 1 else 0
  | [], _, t, _ => by simp
  | w :: rest, hw, t, ht => by
    have hwhead := (List.pairwise_cons.mp hw).1
    have hwrest := (List.pairwise_cons.mp hw).2
    have step := foldl_bumpNested_sumNestedAt j label rest hwrest (bumpNested label w t)
      (bumpNested_sorted ht label w)
    simp only [List.foldl_cons] at step ⊢
    rw [step, sumNestedAt_bumpNested ht.2]
    by_cases hj : j = w
    · subst hj
      have hnot : j ∉ rest := fun hmem => (strLt_ne (hwhead j hmem)).symm rfl
      simp [hnot]
    · simp [hj, List.mem_cons]

theorem inv_empty : ClassifierInv emptyClassifier := by
  constructor <;> simp [emptyClassifier, KeysSorted, NestedSorted, sumVals, sumNestedAt,
    lookupD, lookupNested]

theorem inv_train_one {m : Classifier} (hm : ClassifierInv m) (label content : String) :
    ClassifierInv (train_one m label content) := by
  have hws : (unique_words content).Pairwise (fun a b => strLt a b = true) :=
    unique_words_sorted content
  constructor
  · exact bump_sorted hm.label_sorted label
  · exact foldl_bump_sorted (unique_words content) m.numPosts_word hm.word_sorted
  · exact foldl_bumpNested_sorted label (unique_words content) m.numPosts_label_word
      hm.nested_sorted
  · exact foldl_insertSorted_sorted (unique_words content) m.vocabulary hm.vocab_sorted
  · exact bump_pos hm.label_pos label
  · show m.total_posts + 1 = sumVals (bump label m.numPosts_label)
    rw [sumVals_bump, hm.total_eq]
  · intro w
    show lookupD ((unique_words content).foldl (fun t w => bump w t) m.numPosts_word) w =
      sumNestedAt w ((unique_words content).foldl (fun t x => bumpNested label x t)
        m.numPosts_label_word)
    rw [foldl_bump_lookupD w (unique_words content) hws m.numPosts_word hm.word_sorted,
      foldl_bumpNested_sumNestedAt w label (unique_words content) hws
        m.numPosts_label_word hm.nested_sorted, hm.doc_eq w]
  · intro lab w
    show lookupNested ((unique_words content).foldl (fun t x => bumpNested label x t)
        m.numPosts_label_word) lab w ≤ lookupD (bump label m.numPosts_label) lab
    rw [foldl_bumpNested_lookup lab w label (unique_words content) hws
      m.numPosts_label_word hm.nested_sorted, lookupD_bump hm.label_sorted]
    have hbase := hm.nested_le lab w
    by_cases hl : lab = label
    · subst hl
      by_cases hw : w ∈ unique_words content <;> simp [hw] <;> omega
    · simp [hl]
      omega

theorem inv_trainRows {m : Classifier} (hm : ClassifierInv m)
    (rows : List (String × String)) : ClassifierInv (trainRows m rows) := by
  induction rows generalizing m with
  | nil => exact hm
  | cons row rest ih =>
    exact ih (inv_train_one hm row.1 row.2)

theorem inv_trainList (rows : List (String × String)) : ClassifierInv (trainList rows) :=
  inv_trainRows inv_empty rows

theorem total_pos_of_label {m : Classifier} (hm : ClassifierInv m)
    (h : m.numPosts_label ≠ []) : 0 < m.total_posts := by
  rcases hl : m.numPosts_label with _ | ⟨e, rest⟩
  · exact absurd hl h
  · have hpos : 0 < e.2 := hm.label_pos e (hl ▸ List.mem_cons_self _ _)
    have := hm.total_eq
    rw [hl] at this
    simp only [sumVals, List.map_cons, List.sum_cons] at this
    omega

theorem lookupNested_findVal :
    ∀ (t : List (String × List (String × ℕ))) (label w : String),
      lookupNested t label w =
        match findVal t label with
        | none => 0
        | some inner => lookupD inner w
  | [], _, _ => rfl
  | (k, inner) :: rest, label, w => by
    by_cases hl : label = k
    · simp [lookupNested, findVal, hl]
    · simp only [lookupNested, findVal, if_neg hl]
      exact lookupNested_findVal rest label w

theorem cll_count_eq (m : Classifier) (label word : String) :
    calculate_log_likelihood m label word =
      if 0 < lookupNested m.numPosts_label_word label word then
        Real.log ((lookupNested m.numPosts_label_word label word : ℝ) /
          (lookupD m.numPosts_label label : ℝ))
      else if 0 < lookupD m.numPosts_word word then
        Real.log ((lookupD m.numPosts_word word : ℝ) / (m.total_posts : ℝ))
      else Real.log (1 / (m.total_posts : ℝ)) := by
  unfold calculate_log_likelihood
  rw [lookupNested_findVal]
  rcases hf : findVal m.numPosts_label_word label with _ | inner
  · rfl
  · have hl := lookupD_eq_findVal inner word
    rcases hw : findVal inner word with _ | c
    · rw [hw] at hl
      simp [hw, hl]
    · rw [hw] at hl
      simp [hw, hl]

theorem cll_eq_fracVal (m : Classifier) (label word : String) :
    calculate_log_likelihood m label word = Real.log (fracVal (likFrac m label word)) := by
  rw [cll_count_eq]
  unfold likFrac fracVal
  by_cases h1 : 0 < lookupNested m.numPosts_label_word label word
  · simp [h1]
  · by_cases h2 : 0 < lookupD m.numPosts_word word
    · simp [h1, h2]
    · simp [h1, h2]

theorem likFrac_pos {m : Classifier} (hm : ClassifierInv m) (htot : 0 < m.total_posts)
    (label word : String) :
    0 < (likFrac m label word).1 ∧ 0 < (likFrac m label word).2 := by
  simp only [likFrac]
  by_cases h1 : 0 < lookupNested m.numPosts_label_word label word
  · rw [if_pos h1]
    exact ⟨h1, lt_of_lt_of_le h1 (hm.nested_le label word)⟩
  · rw [if_neg h1]
    by_cases h2 : 0 < lookupD m.numPosts_word word
    · rw [if_pos h2]
      exact ⟨h2, htot⟩
    · rw [if_neg h2]
      exact ⟨one_pos, htot⟩

theorem foldl_mulFrac (m : Classifier) (label : String) :
    ∀ (ws : List String) (a b : ℕ),
      ws.foldl (fun acc w => (acc.1 * (likFrac m label w).1, acc.2 * (likFrac m label w).2))
          (a, b) =
        (a * (ws.map (fun w => (likFrac m label w).1)).prod,
         b * (ws.map (fun w => (likFrac m label w).2)).prod)
  | [], a, b => by simp
  | w :: rest, a, b => by
    simp only [List.foldl_cons, List.map_cons, List.prod_cons]
    rw [foldl_mulFrac m label rest]
    simp [mul_assoc]

theorem scoreFrac_pos {m : Classifier} (hm : ClassifierInv m) (htot : 0 < m.total_posts)
    {cnt : ℕ} (hcnt : 0 < cnt) (ws : List String) (label : String) :
    0 < (scoreFrac m ws label cnt).1 ∧ 0 < (scoreFrac m ws label cnt).2 := by
  unfold scoreFrac
  rw [foldl_mulFrac]
  constructor
  · exact mul_pos hcnt (List.prod_pos (by
      intro x hx
      rcases List.mem_map.mp hx with ⟨w, _, rfl⟩
      exact (likFrac_pos hm htot label w).1))
  · exact mul_pos htot (List.prod_pos (by
      intro x hx
      rcases List.mem_map.mp hx with ⟨w, _, rfl⟩
      exact (likFrac_pos hm htot label w).2))

theorem log_scoreFold (m : Classifier) (label : String) :
    ∀ (ws : List String) (a b : ℕ), 0 < a → 0 < b →
      (∀ w ∈ ws, 0 < (likFrac m label w).1 ∧ 0 < (likFrac m label w).2) →
      Real.log (fracVal (ws.foldl
          (fun acc w => (acc.1 * (likFrac m label w).1, acc.2 * (likFrac m label w).2))
          (a, b))) =
        Real.log ((a : ℝ) / (b : ℝ)) +
          (ws.map (fun w => Real.log (fracVal (likFrac m label w)))).sum
  | [], a, b, _, _, _ => by simp [fracVal]
  | w :: rest, a, b, ha, hb, hall => by
    have hw := hall w (List.mem_cons_self _ _)
    have step := log_scoreFold m label rest (a * (likFrac m label w).1)
      (b * (likFrac m label w).2) (mul_pos ha hw.1) (mul_pos hb hw.2)
      (fun x hx => hall x (List.mem_cons_of_mem _ hx))
    simp only [List.foldl_cons, List.map_cons, List.sum_cons]
    rw [step]
    have hsplit : ((a * (likFrac m label w).1 : ℕ) : ℝ) /
        ((b * (likFrac m label w).2 : ℕ) : ℝ) =
        ((a : ℝ) / (b : ℝ)) * (((likFrac m label w).1 : ℝ) / ((likFrac m label w).2 : ℝ)) := by
      push_cast
      ring
    have hab : (0 : ℝ) < (a : ℝ) / (b : ℝ) := by positivity
    have hlik : (0 : ℝ) < ((likFrac m label w).1 : ℝ) / ((likFrac m label w).2 : ℝ) := by
      have h1 : (0 : ℝ) < ((likFrac m label w).1 : ℝ) := by exact_mod_cast hw.1
      have h2 : (0 : ℝ) < ((likFrac m label w).2 : ℝ) := by exact_mod_cast hw.2
      positivity
    rw [hsplit, Real.log_mul (ne_of_gt hab) (ne_of_gt hlik)]
    have : fracVal (likFrac m label w) =
        ((likFrac m label w).1 : ℝ) / ((likFrac m label w).2 : ℝ) := rfl
    rw [this]
    ring

theorem realScore_eq {m : Classifier} (hm : ClassifierInv m) (htot : 0 < m.total_posts)
    {cnt : ℕ} (hcnt : 0 < cnt) (ws : List String) (label : String) :
    realScore m ws label cnt = Real.log (fracVal (scoreFrac m ws label cnt)) := by
  unfold realScore scoreFrac
  rw [log_scoreFold m label ws cnt m.total_posts hcnt htot
    (fun w _ => likFrac_pos hm htot label w)]
  simp only [cll_eq_fracVal]

theorem fracVal_pos {p : ℕ × ℕ} (h1 : 0 < p.1) (h2 : 0 < p.2) : 0 < fracVal p := by
  unfold fracVal
  have c1 : (0 : ℝ) < (p.1 : ℝ) := by exact_mod_cast h1
  have c2 : (0 : ℝ) < (p.2 : ℝ) := by exact_mod_cast h2
  positivity

theorem log_fracVal_le_iff {p q : ℕ × ℕ} (hp1 : 0 < p.1) (hp2 : 0 < p.2)
    (hq1 : 0 < q.1) (hq2 : 0 < q.2) :
    Real.log (fracVal p) ≤ Real.log (fracVal q) ↔ p.1 * q.2 ≤ q.1 * p.2 := by
  rw [Real.log_le_log_iff (fracVal_pos hp1 hp2) (fracVal_pos hq1 hq2)]
  unfold fracVal
  rw [div_le_div_iff₀ (by exact_mod_cast hp2) (by exact_mod_cast hq2)]
  constructor
  · intro h
    exact_mod_cast h
  · intro h
    exact_mod_cast h

theorem log_fracVal_lt_iff {p q : ℕ × ℕ} (hp1 : 0 < p.1) (hp2 : 0 < p.2)
    (hq1 : 0 < q.1) (hq2 : 0 < q.2) :
    Real.log (fracVal p) < Real.log (fracVal q) ↔ p.1 * q.2 < q.1 * p.2 := by
  rw [Real.log_lt_log_iff (fracVal_pos hp1 hp2) (fracVal_pos hq1 hq2)]
  unfold fracVal
  rw [div_lt_div_iff₀ (by exact_mod_cast hp2) (by exact_mod_cast hq2)]
  constructor
  · intro h
    exact_mod_cast h
  · intro h
    exact_mod_cast h

theorem log_fracVal_eq_iff {p q : ℕ × ℕ} (hp1 : 0 < p.1) (hp2 : 0 < p.2)
    (hq1 : 0 < q.1) (hq2 : 0 < q.2) :
    Real.log (fracVal p) = Real.log (fracVal q) ↔ p.1 * q.2 = q.1 * p.2 := by
  rw [le_antisymm_iff, le_antisymm_iff,
    log_fracVal_le_iff hp1 hp2 hq1 hq2, log_fracVal_le_iff hq1 hq2 hp1 hp2]

theorem fracVal_le_iff {p q : ℕ × ℕ} (hp2 : 0 < p.2) (hq2 : 0 < q.2) :
    fracVal p ≤ fracVal q ↔ p.1 * q.2 ≤ q.1 * p.2 := by
  unfold fracVal
  rw [div_le_div_iff₀ (by exact_mod_cast hp2) (by exact_mod_cast hq2)]
  constructor
  · intro h
    exact_mod_cast h
  · intro h
    exact_mod_cast h

theorem fracVal_lt_iff {p q : ℕ × ℕ} (hp2 : 0 < p.2) (hq2 : 0 < q.2) :
    fracVal p < fracVal q ↔ p.1 * q.2 < q.1 * p.2 := by
  unfold fracVal
  rw [div_lt_div_iff₀ (by exact_mod_cast hp2) (by exact_mod_cast hq2)]
  constructor
  · intro h
    exact_mod_cast h
  · intro h
    exact_mod_cast h

theorem fracVal_eq_iff {p q : ℕ × ℕ} (hp2 : 0 < p.2) (hq2 : 0 < q.2) :
    fracVal p = fracVal q ↔ p.1 * q.2 = q.1 * p.2 := by
  rw [le_antisymm_iff, le_antisymm_iff, fracVal_le_iff hp2 hq2, fracVal_le_iff hq2 hp2]

theorem predictStep_none (m : Classifier) (words : List String) (e : String × ℕ) :
    predictStep m words none e = some (e.1, scoreFrac m words e.1 e.2) := rfl

theorem predictStep_some (m : Classifier) (words : List String) (bl : String)
    (bs : ℕ × ℕ) (e : String × ℕ) :
    predictStep m words (some (bl, bs)) e =
      if bs.1 * (scoreFrac m words e.1 e.2).2 < (scoreFrac m words e.1 e.2).1 * bs.2 ∨
          ((scoreFrac m words e.1 e.2).1 * bs.2 = bs.1 * (scoreFrac m words e.1 e.2).2 ∧
            strLt e.1 bl = true) then
        some (e.1, scoreFrac m words e.1 e.2)
      else some (bl, bs) := rfl

theorem predictFold (m : Classifier) (words : List String) :
    ∀ (L : List (String × ℕ)) (bl0 : String) (bs0 : ℕ × ℕ),
      (∀ e ∈ L, 0 < (scoreFrac m words e.1 e.2).1 ∧ 0 < (scoreFrac m words e.1 e.2).2) →
      0 < bs0.1 → 0 < bs0.2 →
      ∃ bl bs,
        L.foldl (predictStep m words) (some (bl0, bs0)) = some (bl, bs) ∧
        (0 < bs.1 ∧ 0 < bs.2) ∧
        fracVal bs0 ≤ fracVal bs ∧
        ((bl = bl0 ∧ bs = bs0) ∨ ∃ e ∈ L, bl = e.1 ∧ bs = scoreFrac m words e.1 e.2) ∧
        (∀ e ∈ L, fracVal (scoreFrac m words e.1 e.2) ≤ fracVal bs) ∧
        (∀ e ∈ L, fracVal (scoreFrac m words e.1 e.2) = fracVal bs → strLt e.1 bl = false) ∧
        (fracVal bs = fracVal bs0 → strLt bl0 bl = false)
  | [], bl0, bs0, _, h01, h02 => by
    refine ⟨bl0, bs0, rfl, ⟨h01, h02⟩, le_refl _, Or.inl ⟨rfl, rfl⟩, ?_, ?_, ?_⟩
    · intro e he
      simp at he
    · intro e he
      simp at he
    · intro _
      exact strLt_irrefl bl0
  | e :: rest, bl0, bs0, hall, h01, h02 => by
    obtain ⟨hs1, hs2⟩ := hall e (List.mem_cons_self _ _)
    have hallr : ∀ x ∈ rest, 0 < (scoreFrac m words x.1 x.2).1 ∧
        0 < (scoreFrac m words x.1 x.2).2 :=
      fun x hx => hall x (List.mem_cons_of_mem _ hx)
    rw [List.foldl_cons, predictStep_some]
    by_cases hcond : bs0.1 * (scoreFrac m words e.1 e.2).2 <
        (scoreFrac m words e.1 e.2).1 * bs0.2 ∨
        ((scoreFrac m words e.1 e.2).1 * bs0.2 = bs0.1 * (scoreFrac m words e.1 e.2).2 ∧
          strLt e.1 bl0 = true)
    · rw [if_pos hcond]
      obtain ⟨bl, bs, hfold, hpos, hge, hprov, hbound, htie, hlast⟩ :=
        predictFold m words rest e.1 (scoreFrac m words e.1 e.2) hallr hs1 hs2
      have hs_le_bs : fracVal (scoreFrac m words e.1 e.2) ≤ fracVal bs := hge
      have h0_le_s : fracVal bs0 ≤ fracVal (scoreFrac m words e.1 e.2) := by
        rcases hcond with hlt | ⟨heq, _⟩
        · exact le_of_lt ((fracVal_lt_iff h02 hs2).mpr hlt)
        · exact le_of_eq ((fracVal_eq_iff h02 hs2).mpr heq.symm)
      refine ⟨bl, bs, hfold, hpos, le_trans h0_le_s hs_le_bs, ?_, ?_, ?_, ?_⟩
      · rcases hprov with ⟨hbl, hbs⟩ | ⟨x, hx, hbl, hbs⟩
        · exact Or.inr ⟨e, List.mem_cons_self _ _, hbl, hbs⟩
        · exact Or.inr ⟨x, List.mem_cons_of_mem _ hx, hbl, hbs⟩
      · intro x hx
        rcases List.mem_cons.mp hx with rfl | hx
        · exact hs_le_bs
        · exact hbound x hx
      · intro x hx hxeq
        rcases List.mem_cons.mp hx with rfl | hx
        · exact hlast hxeq.symm
        · exact htie x hx hxeq
      · intro hbs0
        have hall_eq : fracVal (scoreFrac m words e.1 e.2) = fracVal bs0 :=
          le_antisymm (le_trans hs_le_bs (le_of_eq hbs0)) h0_le_s
        rcases hcond with hlt | ⟨_, hlt0⟩
        · exact absurd ((fracVal_lt_iff h02 hs2).mpr hlt)
            (not_lt.mpr (le_of_eq hall_eq))
        · have hebl : strLt e.1 bl = false := hlast (by rw [hbs0, ← hall_eq])
          cases hb : strLt bl0 bl with
          | false => rfl
          | true => exact absurd (strLt_trans hlt0 hb) (by simp [hebl])
    · rw [if_neg hcond]
      push_neg at hcond
      obtain ⟨hnotlt, hnotie⟩ := hcond
      obtain ⟨bl, bs, hfold, hpos, hge, hprov, hbound, htie, hlast⟩ :=
        predictFold m words rest bl0 bs0 hallr h01 h02
      have hs_le_0 : fracVal (scoreFrac m words e.1 e.2) ≤ fracVal bs0 :=
        (fracVal_le_iff hs2 h02).mpr hnotlt
      refine ⟨bl, bs, hfold, hpos, hge, ?_, ?_, ?_, hlast⟩
      · rcases hprov with ⟨hbl, hbs⟩ | ⟨x, hx, hbl, hbs⟩
        · exact Or.inl ⟨hbl, hbs⟩
        · exact Or.inr ⟨x, List.mem_cons_of_mem _ hx, hbl, hbs⟩
      · intro x hx
        rcases List.mem_cons.mp hx with rfl | hx
        · exact le_trans hs_le_0 hge
        · exact hbound x hx
      · intro x hx hxeq
        rcases List.mem_cons.mp hx with rfl | hx
        · have heq0 : fracVal (scoreFrac m words x.1 x.2) = fracVal bs0 :=
            le_antisymm hs_le_0 (le_trans hge (le_of_eq hxeq.symm))
          have hxbl0 : strLt x.1 bl0 = false := by
            have hne := hnotie ((fracVal_eq_iff hs2 h02).mp heq0)
            cases hxb : strLt x.1 bl0 with
            | false => rfl
            | true => exact absurd hxb hne
          have hbl0bl : strLt bl0 bl = false := hlast (by
            rw [← hxeq, heq0])
          exact strLt_false_trans hxbl0 hbl0bl
        · exact htie x hx hxeq

theorem log_fracVal_inj {p q : ℕ × ℕ} (hp1 : 0 < p.1) (hp2 : 0 < p.2)
    (hq1 : 0 < q.1) (hq2 : 0 < q.2)
    (heq : Real.log (fracVal p) = Real.log (fracVal q)) : fracVal p = fracVal q :=
  le_antisymm
    ((Real.log_le_log_iff (fracVal_pos hp1 hp2) (fracVal_pos hq1 hq2)).mp (le_of_eq heq))
    ((Real.log_le_log_iff (fracVal_pos hq1 hq2) (fracVal_pos hp1 hp2)).mp
      (le_of_eq heq.symm))

theorem predict_max {m : Classifier} (hm : ClassifierInv m) (content : String)
    (h : m.numPosts_label ≠ []) :
    ((predict m content, lookupD m.numPosts_label (predict m content)) ∈
        m.numPosts_label) ∧
    (∀ l c, (l, c) ∈ m.numPosts_label →
      realScore m (unique_words content) l c ≤
        realScore m (unique_words content) (predict m content)
          (lookupD m.numPosts_label (predict m content))) ∧
    (∀ l c, (l, c) ∈ m.numPosts_label →
      realScore m (unique_words content) l c =
        realScore m (unique_words content) (predict m content)
          (lookupD m.numPosts_label (predict m content)) →
      predict m content = l ∨ strLt (predict m content) l = true) := by
  have htot : 0 < m.total_posts := total_pos_of_label hm h
  rcases hL : m.numPosts_label with _ | ⟨e0, t⟩
  · exact absurd hL h
  · have he0 : e0 ∈ m.numPosts_label := hL ▸ List.mem_cons_self _ _
    have he0pos : 0 < e0.2 := hm.label_pos e0 he0
    have hb0 := scoreFrac_pos hm htot he0pos (unique_words content) e0.1
    have hallt : ∀ x ∈ t, 0 < (scoreFrac m (unique_words content) x.1 x.2).1 ∧
        0 < (scoreFrac m (unique_words content) x.1 x.2).2 := by
      intro x hx
      have hxm : x ∈ m.numPosts_label := hL ▸ List.mem_cons_of_mem _ hx
      exact scoreFrac_pos hm htot (hm.label_pos x hxm) (unique_words content) x.1
    obtain ⟨bl, bs, hfold, hpos, hge, hprov, hbound, htie, hlast⟩ :=
      predictFold m (unique_words content) t e0.1
        (scoreFrac m (unique_words content) e0.1 e0.2) hallt hb0.1 hb0.2
    have hpp : predictPair m content = (bl, some bs) := by
      simp only [predictPair]
      rw [hL, List.foldl_cons, predictStep_none, hfold]
    have hpredict : predict m content = bl := by
      rw [predict, hpp]
    obtain ⟨x, hx, hblx, hbsx⟩ : ∃ x ∈ m.numPosts_label,
        bl = x.1 ∧ bs = scoreFrac m (unique_words content) x.1 x.2 := by
      rcases hprov with ⟨hbl, hbs⟩ | ⟨x, hxt, hbl, hbs⟩
      · exact ⟨e0, he0, hbl, hbs⟩
      · exact ⟨x, hL ▸ List.mem_cons_of_mem _ hxt, hbl, hbs⟩
    have hxpos : 0 < x.2 := hm.label_pos x hx
    have hcbl : lookupD m.numPosts_label bl = x.2 := by
      rw [hblx]
      exact lookupD_of_mem hm.label_sorted hx
    have hbest : realScore m (unique_words content) bl
        (lookupD m.numPosts_label bl) = Real.log (fracVal bs) := by
      rw [hcbl, hblx, realScore_eq hm htot hxpos (unique_words content) x.1, ← hbsx]
    have hmax_frac : ∀ l c, (l, c) ∈ m.numPosts_label →
        fracVal (scoreFrac m (unique_words content) l c) ≤ fracVal bs := by
      intro l c hlc
      rw [hL] at hlc
      rcases List.mem_cons.mp hlc with heq | hlt
    -- (l, c) is the head entry or a tail entry
      · have h1 : l = e0.1 := congrArg Prod.fst heq
        have h2 : c = e0.2 := congrArg Prod.snd heq
        rw [h1, h2]
        exact hge
      · exact hbound (l, c) hlt
    refine ⟨?_, ?_, ?_⟩
    · simp only [← hL]
      rw [hpredict, hcbl, hblx]
      exact hx
    · simp only [← hL]
      intro l c hlc
      have hcpos : 0 < c := hm.label_pos (l, c) hlc
      rw [hpredict, hbest, realScore_eq hm htot hcpos (unique_words content) l]
      have := hmax_frac l c hlc
      have hsf := scoreFrac_pos hm htot hcpos (unique_words content) l
      exact (Real.log_le_log_iff (fracVal_pos hsf.1 hsf.2)
        (fracVal_pos hpos.1 hpos.2)).mpr this
    · simp only [← hL]
      intro l c hlc heq
      have hcpos : 0 < c := hm.label_pos (l, c) hlc
      rw [hpredict] at heq ⊢
      rw [hbest, realScore_eq hm htot hcpos (unique_words content) l] at heq
      have hsf := scoreFrac_pos hm htot hcpos (unique_words content) l
      have hfr_eq : fracVal (scoreFrac m (unique_words content) l c) = fracVal bs :=
        log_fracVal_inj hsf.1 hsf.2 hpos.1 hpos.2 heq
      have hlbl : strLt l bl = false := by
        rw [hL] at hlc
        rcases List.mem_cons.mp hlc with he | hlt
        · have h1 : l = e0.1 := congrArg Prod.fst he
          have h2 : c = e0.2 := congrArg Prod.snd he
          rw [h1]
          apply hlast
          rw [← hfr_eq, h1, h2]
        · exact htie (l, c) hlt hfr_eq
      rcases strLt_total bl l with hblt | hrfl | hllt
      · exact Or.inr hblt
      · exact Or.inl hrfl
      · exact absurd hllt (by simp [hlbl])

/-- C1: for every trained model, label and word, `calculate_log_likelihood`
follows the three-tier policy evaluated in order: if
`LabelWordFrequency[label][word] = c > 0` it returns
`ln(c / LabelFrequency[label])`; else if `DocFrequency[word] = g > 0` it
returns `ln(g / TotalDocuments)`; else it returns `ln(1 / TotalDocuments)`. -/
theorem spec2_C1 (rows : List (String × String)) (label word : String) :
    calculate_log_likelihood (trainList rows) label word =
      specLogLikelihood (trainList rows) label word := by
  rw [cll_count_eq]
  unfold specLogLikelihood LabelWordFrequency DocFrequency LabelFrequency TotalDocuments
  rfl

/-- C3: after any sequence of training ingestions, `TotalDocuments` equals the
sum of `LabelFrequency` over all labels, and for every word `w`,
`DocFrequency[w]` equals the sum over all labels of
`LabelWordFrequency[L][w]`; ingesting one further document preserves both
equalities. -/
theorem spec2_C3 (rows : List (String × String)) :
    ((trainList rows).total_posts = sumVals (trainList rows).numPosts_label ∧
      ∀ w, lookupD (trainList rows).numPosts_word w =
        sumNestedAt w (trainList rows).numPosts_label_word) ∧
    ∀ label content,
      (train_one (trainList rows) label content).total_posts =
          sumVals (train_one (trainList rows) label content).numPosts_label ∧
      ∀ w, lookupD (train_one (trainList rows) label content).numPosts_word w =
        sumNestedAt w (train_one (trainList rows) label content).numPosts_label_word := by
  refine ⟨⟨(inv_trainList rows).total_eq, (inv_trainList rows).doc_eq⟩, ?_⟩
  intro label content
  exact ⟨(inv_train_one (inv_trainList rows) label content).total_eq,
    (inv_train_one (inv_trainList rows) label content).doc_eq⟩

/-- C5: ingesting one training document increments the per-word counters of
each distinct word of the document by exactly one, regardless of how many
times the word occurs in the raw text; in particular the word set of
"a a b" is exactly ["a", "b"]. -/
theorem spec2_C5 (rows : List (String × String)) (label content w : String) :
    lookupD (train_one (trainList rows) label content).numPosts_word w =
        lookupD (trainList rows).numPosts_word w +
          (if w ∈ unique_words content then 1 else 0) ∧
    lookupNested (train_one (trainList rows) label content).numPosts_label_word label w =
        lookupNested (trainList rows).numPosts_label_word label w +
          (if w ∈ unique_words content then 1 else 0) ∧
    unique_words "a a b" = ["a", "b"] := by
  have hm := inv_trainList rows
  have hws := unique_words_sorted content
  refine ⟨?_, ?_, by decide⟩
  · simp only [train_one]
    exact foldl_bump_lookupD w (unique_words content) hws _ hm.word_sorted
  · simp only [train_one]
    have := foldl_bumpNested_lookup label w label (unique_words content) hws _
      hm.nested_sorted
    simpa using this

/-- C7: training is monotone: ingesting an additional training document never
decreases the vocabulary size and never decreases any `DocFrequency` entry. -/
theorem spec2_C7 (rows : List (String × String)) (label content w : String) :
    (trainList rows).vocabulary.length ≤
        (train_one (trainList rows) label content).vocabulary.length ∧
    lookupD (trainList rows).numPosts_word w ≤
        lookupD (train_one (trainList rows) label content).numPosts_word w := by
  constructor
  · simp only [train_one]
    exact foldl_insertSorted_length (unique_words content) _
  · simp only [train_one]
    rw [foldl_bump_lookupD w (unique_words content) (unique_words_sorted content) _
      (inv_trainList rows).word_sorted]
    omega

/-- C8: ingesting a document with empty content yields an empty word set, so
the vocabulary and the word tables are unchanged, while `TotalDocuments` and
`LabelFrequency[label]` are still incremented by one. -/
theorem spec2_C8 (rows : List (String × String)) (label : String) :
    unique_words "" = [] ∧
    (train_one (trainList rows) label "").vocabulary = (trainList rows).vocabulary ∧
    (train_one (trainList rows) label "").numPosts_word =
      (trainList rows).numPosts_word ∧
    (train_one (trainList rows) label "").numPosts_label_word =
      (trainList rows).numPosts_label_word ∧
    (train_one (trainList rows) label "").total_posts =
      (trainList rows).total_posts + 1 ∧
    lookupD (train_one (trainList rows) label "").numPosts_label label =
      lookupD (trainList rows).numPosts_label label + 1 := by
  have hempty : unique_words "" = [] := by decide
  refine ⟨hempty, ?_, ?_, ?_, rfl, ?_⟩
  · simp [train_one, hempty]
  · simp [train_one, hempty]
  · simp [train_one, hempty]
  · simp only [train_one]
    rw [lookupD_bump (inv_trainList rows).label_sorted]
    simp

/-- C10: for a model with zero trained labels, `predict` does not fault: the
label loop is empty, so it returns the empty label string with the score
left at its initial sentinel (modelling `numeric_limits<double>::lowest()`). -/
theorem spec2_C10 (m : Classifier) (content : String) (h : m.numPosts_label = []) :
    predictPair m content = ("", none) := by
  simp only [predictPair]
  rw [h]
  rfl

/-- Witness for C10 at the empty classifier. -/
theorem spec2_C10_witness :
    emptyClassifier.numPosts_label = [] ∧
    predictPair emptyClassifier "great" = ("", none) :=
  ⟨rfl, spec2_C10 emptyClassifier "great" rfl⟩

/-- Counterexample to C4 as stated: with a file system on which no file can
be opened, running with only a training-file argument prints the error inside
`train` but the process continues and exits with status 0, not nonzero. -/
theorem spec2_C4_counterexample :
    runMain ["classifier.exe", "train.csv"] (fun _ => none) = (0, emptyClassifier) := by
  decide

/-- C4 (amended): an unreadable test file is reported with nonzero exit
status; an unreadable training file is reported inside `train`, which returns
leaving the classifier untouched, and in training-only mode the process then
exits with status 0. -/
theorem spec2_C4 (fs : String → Option (List (String × String)))
    (prog tf tst : String) :
    (fs tf = none →
      train emptyClassifier (fs tf) = emptyClassifier ∧
      runMain [prog, tf] fs = (0, emptyClassifier)) ∧
    (fs tst = none → (runMain [prog, tf, tst] fs).1 = 1) := by
  constructor
  · intro h
    constructor
    · rw [h]
      rfl
    · simp [runMain, List.getD, h, train]
  · intro h
    simp [runMain, List.getD, h]

/-- Witness for C4 (amended) on the file system with no readable files. -/
theorem spec2_C4_witness :
    runMain ["classifier.exe", "a.csv"] (fun _ => none) = (0, emptyClassifier) ∧
    (runMain ["classifier.exe", "a.csv", "b.csv"] (fun _ => none)).1 = 1 :=
  ⟨((spec2_C4 (fun _ => none) "classifier.exe" "a.csv" "b.csv").1 rfl).2,
    (spec2_C4 (fun _ => none) "classifier.exe" "a.csv" "b.csv").2 rfl⟩

/-- Counterexample to C9 as stated: training on label "b" then label "a"
gives first-seen label order ["b", "a"], but the classes section of the
diagnostic dump iterates `numPosts_label` (a `std::map`) and therefore emits
["a", "b"]: the dump order is not the insertion order. -/
theorem spec2_C9_counterexample :
    classesLabels (trainList [("b", "p"), ("a", "q")]) = ["a", "b"] ∧
    insertionOrder (trainList [("b", "p"), ("a", "q")]) = ["b", "a"] ∧
    classesLabels (trainList [("b", "p"), ("a", "q")]) ≠
      insertionOrder (trainList [("b", "p"), ("a", "q")]) := by
  refine ⟨by decide, by decide, by decide⟩

/-- C9 (amended): the classes section of the diagnostic dump emits each
label, its document count, and its log prior, with the labels in ascending
lexicographic order (the iteration order of `std::map`), not insertion
order. -/
theorem spec2_C9 (rows : List (String × String)) :
    (classesSection (trainList rows)).map (fun e => e.1) =
        classesLabels (trainList rows) ∧
    (classesLabels (trainList rows)).Pairwise (fun a b => strLt a b = true) := by
  constructor
  · unfold classesSection classesLabels
    rw [List.map_map]
    rfl
  · unfold classesLabels
    exact List.pairwise_map.mpr (inv_trainList rows).label_sorted

/-- C6: for every trained model and every label present in `LabelFrequency`,
the log prior used both in the diagnostic dump and in the per-label score of
prediction equals `ln(LabelFrequency[label] / TotalDocuments)`; with 3
documents labeled "x" and 1 labeled "y", `logPrior("x") = ln(3/4)` and
`logPrior("y") = ln(1/4)`. -/
theorem spec2_C6 :
    (∀ (rows : List (String × String)) (label : String) (c : ℕ),
      findVal (trainList rows).numPosts_label label = some c →
        ((label, c, logPrior (trainList rows) label) ∈ classesSection (trainList rows) ∧
          logPrior (trainList rows) label =
            Real.log ((c : ℝ) / ((trainList rows).total_posts : ℝ)) ∧
          ∀ words, realScore (trainList rows) words label c =
            logPrior (trainList rows) label +
              (words.map (fun w =>
                calculate_log_likelihood (trainList rows) label w)).sum)) ∧
    logPrior (trainList [("x", "a"), ("x", "b"), ("x", "c"), ("y", "d")]) "x" =
      Real.log (3 / 4) ∧
    logPrior (trainList [("x", "a"), ("x", "b"), ("x", "c"), ("y", "d")]) "y" =
      Real.log (1 / 4) := by
  refine ⟨?_, ?_, ?_⟩
  · intro rows label c hf
    have hlc : lookupD (trainList rows).numPosts_label label = c := by
      rw [lookupD_eq_findVal, hf]
      rfl
    have hmem : (label, c) ∈ (trainList rows).numPosts_label := mem_of_findVal hf
    have hlp : logPrior (trainList rows) label =
        Real.log ((c : ℝ) / ((trainList rows).total_posts : ℝ)) := by
      unfold logPrior LabelFrequency TotalDocuments
      rw [hlc]
    refine ⟨?_, hlp, ?_⟩
    · rw [hlp]
      unfold classesSection
      exact List.mem_map_of_mem _ hmem
    · intro words
      unfold realScore
      rw [hlp]
  · have h1 : lookupD
        (trainList [("x", "a"), ("x", "b"), ("x", "c"), ("y", "d")]).numPosts_label
        "x" = 3 := by decide
    have h2 : (trainList [("x", "a"), ("x", "b"), ("x", "c"), ("y", "d")]).total_posts
        = 4 := by decide
    unfold logPrior LabelFrequency TotalDocuments
    rw [h1, h2]
    norm_num
  · have h1 : lookupD
        (trainList [("x", "a"), ("x", "b"), ("x", "c"), ("y", "d")]).numPosts_label
        "y" = 1 := by decide
    have h2 : (trainList [("x", "a"), ("x", "b"), ("x", "c"), ("y", "d")]).total_posts
        = 4 := by decide
    unfold logPrior LabelFrequency TotalDocuments
    rw [h1, h2]
    norm_num

/-- Witness for C6 at the concrete four-document model. -/
theorem spec2_C6_witness :
    findVal (trainList [("x", "a"), ("x", "b"), ("x", "c"), ("y", "d")]).numPosts_label
      "x" = some 3 ∧
    ("x", 3, logPrior (trainList [("x", "a"), ("x", "b"), ("x", "c"), ("y", "d")]) "x") ∈
      classesSection (trainList [("x", "a"), ("x", "b"), ("x", "c"), ("y", "d")]) :=
  ⟨by decide,
    (spec2_C6.1 [("x", "a"), ("x", "b"), ("x", "c"), ("y", "d")] "x" 3 (by decide)).1⟩

/-- C2: for every trained model with at least one label, `predict` returns a
stored label whose score is maximal, and any label whose score ties the
returned one is lexicographically no smaller than it; in particular after
training on [("sports", "great game"), ("politics", "great debate")] in
either order, `predict "great"` returns "politics". -/
theorem spec2_C2 (rows : List (String × String)) (content : String)
    (h : (trainList rows).numPosts_label ≠ []) :
    (((predict (trainList rows) content,
        lookupD (trainList rows).numPosts_label (predict (trainList rows) content)) ∈
        (trainList rows).numPosts_label) ∧
      (∀ l c, (l, c) ∈ (trainList rows).numPosts_label →
        realScore (trainList rows) (unique_words content) l c ≤
          realScore (trainList rows) (unique_words content)
            (predict (trainList rows) content)
            (lookupD (trainList rows).numPosts_label
              (predict (trainList rows) content))) ∧
      (∀ l c, (l, c) ∈ (trainList rows).numPosts_label →
        realScore (trainList rows) (unique_words content) l c =
          realScore (trainList rows) (unique_words content)
            (predict (trainList rows) content)
            (lookupD (trainList rows).numPosts_label
              (predict (trainList rows) content)) →
        predict (trainList rows) content = l ∨
          strLt (predict (trainList rows) content) l = true)) ∧
    predict (trainList [("sports", "great game"), ("politics", "great debate")])
      "great" = "politics" ∧
    predict (trainList [("politics", "great debate"), ("sports", "great game")])
      "great" = "politics" :=
  ⟨predict_max (inv_trainList rows) content h, by decide, by decide⟩

/-- Witness for C2 on the two-label tie example. -/
theorem spec2_C2_witness :
    (trainList [("sports", "great game"), ("politics", "great debate")]).numPosts_label
      ≠ [] ∧
    ((predict (trainList [("sports", "great game"), ("politics", "great debate")])
        "great",
      lookupD
        (trainList [("sports", "great game"), ("politics", "great debate")]).numPosts_label
        (predict (trainList [("sports", "great game"), ("politics", "great debate")])
          "great")) ∈
      (trainList [("sports", "great game"), ("politics", "great debate")]).numPosts_label) :=
  ⟨by decide,
    (spec2_C2 [("sports", "great game"), ("politics", "great debate")] "great"
      (by decide)).1.1⟩
